import Mathlib

/-!
Verification development for the `cc0::scale` header (src/scale.h): a
fixed-point number type `fixed<32,15>`, geometric primitives, and the
N-dimensional resampling iterator `cc0::scale::scale`.

The C++ code is embedded shallowly.  Machine integers are modelled as `Int`
with an explicit two's-complement truncation `wrap32` applied wherever the
source stores a result into an `int32_t`.  The `scale` function invokes a
caller-supplied processor once per destination tuple; we reify that call
sequence as a list of (destination index tuple, source index tuple) pairs,
produced in exactly the order the code produces the calls.
-/

namespace Scale

/-- Truncation of an unbounded integer to a signed 32-bit machine integer
(two's-complement wraparound).  Applied wherever the C++ code stores an
arithmetic result into an `int32_t`. -/
def wrap32 (x : Int) : Int := (x + 2147483648) % 4294967296 - 2147483648

/-- Conversion of a `fixed<32,15>` bit pattern to a native integer
(`operator int_t`, line 91): `value_bits >> precision`, an arithmetic right
shift by 15, i.e. flooring division by 2^15. -/
def fixedToInt (v : Int) : Int := Int.fdiv v 32768

/-- Conversion of a native integer to `fixed<32,15>` (line 88):
`n << precision` stored into the `int32_t` field `value_bits`. -/
def fixedOfInt (n : Int) : Int := wrap32 (n * 32768)

/-- Addition of two `fixed<32,15>` values (`operator+=`, line 96): plain
`int32_t` addition of the bit patterns. -/
def fixedAdd (a b : Int) : Int := wrap32 (a + b)

/-- Division of two `fixed<32,15>` values (`operator/=`, lines 115-118):
widen the left bit pattern to `int64_t`, pre-shift left by 15, divide with
C++ truncating division, and store the quotient back into an `int32_t`. -/
def fixedDiv (a b : Int) : Int := wrap32 (Int.tdiv (a * 32768) b)

/-- The precomputed rational scale factor of the decimal constructor
(line 129): `(int32_t(0x7fff) << 15) / 9999`. -/
def SCALE : Int := Int.tdiv (32767 * 32768) 9999

/-- The decimal-literal constructor `cc0::scale::fixed32(i, d)`
(lines 127-136): normalize an up-to-4-digit decimal part `d` to four digits
(in `uint16_t` arithmetic), scale it by `SCALE`, shift right by 15, and add
it to the bit pattern of `fixed32_t(i)`. -/
def fixed32 (i : Int) (d : Nat) : Int :=
  let d0 := d % 65536
  let d1 := if d0 < 10 then d0 * 1000 % 65536
            else if d0 < 100 then d0 * 100 % 65536
            else if d0 < 1000 then d0 * 10 % 65536
            else d0
  wrap32 (fixedOfInt i + Int.fdiv (wrap32 ((d1 : Int) * SCALE)) 32768)

/-- Instantiation of `internal::min` (lines 185-189) at `type_t = fixed32_t`:
`a < b ? a : b`.  No `operator<` is defined on `fixed`, so both operands go
through the implicit conversion to `int32_t` (`value_bits >> 15`): only the
integer parts are compared, and on equal integer parts `b` is returned. -/
def fmin (a b : Int) : Int := if fixedToInt a < fixedToInt b then a else b

/-- Instantiation of `internal::max` (lines 196-200) at `type_t = fixed32_t`:
`a > b ? a : b`, comparing through the implicit conversion to `int32_t`. -/
def fmax (a b : Int) : Int := if fixedToInt b < fixedToInt a then a else b

/-- A point (`Point<T,D>`): coordinates indexed by axis.  Only the axes
`0 ≤ i < D` are meaningful; a total function keeps indexing simple. -/
def PointN : Type := Nat → Int

/-- Functional update of a single coordinate of a point, modelling an
assignment `p[i] = v`. -/
def fupdate (p : PointN) (i : Nat) (v : Int) : PointN :=
  fun j => if j = i then v else p j

/-- Reads off the `D` coordinates of a point as a list; this is the value
the processor observes when it is handed the point. -/
def snapshot (D : Nat) (p : PointN) : List Int := (List.range D).map p

/-- The arguments of `cc0::scale::scale` (lines 318-319): a destination
area and mask over `int32_t` coordinates, and a source area whose
coordinates are `fixed32_t` bit patterns. -/
structure ScaleIn where
  dstA : PointN
  dstB : PointN
  srcA : PointN
  srcB : PointN
  mskA : PointN
  mskB : PointN

/-- Normalized mask start (lines 321-323): if `mask.a[i] > mask.b[i]` the
endpoints are swapped. -/
def nmA (P : ScaleIn) : PointN :=
  fun i => if P.mskB i < P.mskA i then P.mskB i else P.mskA i

/-- Normalized mask end (lines 321-323). -/
def nmB (P : ScaleIn) : PointN :=
  fun i => if P.mskB i < P.mskA i then P.mskA i else P.mskB i

/-- Destination start after the axis-reversal swap (lines 331-334):
if `dst_area.a[i] > dst_area.b[i]` the destination endpoints are swapped. -/
def ndA (P : ScaleIn) : PointN :=
  fun i => if P.dstB i < P.dstA i then P.dstB i else P.dstA i

/-- Destination end after the axis-reversal swap (lines 331-334). -/
def ndB (P : ScaleIn) : PointN :=
  fun i => if P.dstB i < P.dstA i then P.dstA i else P.dstB i

/-- Source start after the axis-reversal swap: the source endpoints are
swapped together with the destination endpoints (line 333). -/
def nsA (P : ScaleIn) : PointN :=
  fun i => if P.dstB i < P.dstA i then P.srcB i else P.srcA i

/-- Source end after the axis-reversal swap (line 333). -/
def nsB (P : ScaleIn) : PointN :=
  fun i => if P.dstB i < P.dstA i then P.srcA i else P.srcB i

/-- Per-axis source step (line 336):
`src_delta[i].value_bits = (src.b[i].value_bits - src.a[i].value_bits) / (dst.b[i] - dst.a[i])`,
all in `int32_t` arithmetic with C++ truncating division. -/
def srcDelta (P : ScaleIn) : PointN :=
  fun i => wrap32 (Int.tdiv (wrap32 (nsB P i - nsA P i)) (wrap32 (ndB P i - ndA P i)))

/-- Per-axis source start before mask clipping (line 337):
`delta >= 0 ? min(src.a, src.b) : max(src.a, src.b) + delta`, with
`internal::min`/`internal::max` comparing through the int conversion. -/
def axisStart (d sa sb : Int) : Int :=
  if 0 ≤ d then fmin sa sb else fixedAdd (fmax sa sb) d

/-- The per-axis source start of the call, before mask clipping. -/
def srcStart0 (P : ScaleIn) : PointN :=
  fun i => axisStart (srcDelta P i) (nsA P i) (nsB P i)

/-- Destination start after mask clipping (lines 338-341): clamped up to
the mask start when it lies before it. -/
def clipA (P : ScaleIn) : PointN :=
  fun i => if ndA P i < nmA P i then nmA P i else ndA P i

/-- Destination end after mask clipping (lines 342-344): clamped down to
the mask end when it reaches it. -/
def clipB (P : ScaleIn) : PointN :=
  fun i => if nmB P i ≤ ndB P i then nmB P i else ndB P i

/-- The per-axis source start after mask clipping (lines 338-341): when the
destination start is clamped, the source start is advanced by
`delta[i] * (mask.a[i] - dst.a[i])` in `int32_t` arithmetic. -/
def srcStart (P : ScaleIn) : PointN :=
  fun i =>
    if ndA P i < nmA P i
    then wrap32 (srcStart0 P i + wrap32 (srcDelta P i * wrap32 (nmA P i - ndA P i)))
    else srcStart0 P i

/-- The degenerate-range check (lines 325-328): some axis of the
destination or source area has zero width. -/
def degenerate (D : Nat) (P : ScaleIn) : Bool :=
  (List.range D).any fun i => decide (P.dstA i = P.dstB i) || decide (P.srcA i = P.srcB i)

/-- The mask-rejection check (line 335): on some axis the normalized
destination area lies entirely outside the normalized mask. -/
def rejected (D : Nat) (P : ScaleIn) : Bool :=
  (List.range D).any fun i => decide (ndB P i < nmA P i) || decide (nmB P i ≤ ndA P i)

/-- Result of `k` repetitions of `src_index[i] += src_delta[i]` starting
from bit pattern `s`: `k` fixed-point additions, each truncated to 32 bits. -/
def srcSteps : Nat → Int → Int → Int
  | 0, s, _ => s
  | k+1, s, d => srcSteps k (fixedAdd s d) d

/-- Invocation trace of `internal::iterator<idx, D>::operator()`
(lines 217-245): axis `idx` runs from `A idx` while `< B idx`, setting the
destination coordinate and stepping the source coordinate by `Δ idx`, and
recurses to axis `idx - 1`; axis 0 invokes the processor.  Each list entry
is the pair of point values the processor is handed. -/
def iterTrace (D : Nat) (A B S Δ : PointN) :
    Nat → PointN → PointN → List (List Int × List Int)
  | 0, dstI, srcI =>
    (List.range (B 0 - A 0).toNat).map fun (k : Nat) =>
      (snapshot D (fupdate dstI 0 (A 0 + (k : Int))),
       snapshot D (fupdate srcI 0 (srcSteps k (S 0) (Δ 0))))
  | idx+1, dstI, srcI =>
    (List.range (B (idx+1) - A (idx+1)).toNat).flatMap fun (k : Nat) =>
      iterTrace D A B S Δ idx
        (fupdate dstI (idx+1) (A (idx+1) + (k : Int)))
        (fupdate srcI (idx+1) (srcSteps k (S (idx+1)) (Δ (idx+1))))

/-- Invocation trace of `cc0::scale::scale` (lines 318-349): normalize the
mask, short-circuit degenerate ranges, normalize reversed axes, reject
fully masked-out calls, compute per-axis delta, start and clip, then run
the recursive iterator from axis `D - 1`.  The `Point` locals `dst_index`
and `src_index` are default-initialized (uninitialized in C++; every axis
is assigned before the processor ever reads it). -/
def scaleTrace (D : Nat) (P : ScaleIn) : List (List Int × List Int) :=
  if degenerate D P then []
  else if rejected D P then []
  else iterTrace D (clipA P) (clipB P) (srcStart P) (srcDelta P) (D - 1)
    (fun _ => 0) (fun _ => 0)

/-- Effect of the example processor `cc0::scale::write` (lines 252-271)
over an invocation trace: each call performs
`dst[dst_index[0]] = src[int32_t(src_index[0])]`. -/
def runWrite (src : Int → Int) : (Int → Int) → List (List Int × List Int) → (Int → Int)
  | dst, [] => dst
  | dst, e :: rest =>
      runWrite src (fun j => if j = e.1.headI then src (fixedToInt e.2.headI) else dst j) rest

/-- Window membership predicate on a destination snapshot: the coordinate
lies within `[cA i, cB i)` on every axis `i ≤ idx`. -/
def inWin (cA cB : PointN) (idx : Nat) (l : List Int) : Bool :=
  (List.range (idx + 1)).all fun i => decide (cA i ≤ l.getD i 0) && decide (l.getD i 0 < cB i)

theorem wrap32_eq_self {x : Int} (h1 : -2147483648 ≤ x) (h2 : x < 2147483648) :
    wrap32 x = x := by
  unfold wrap32; omega

theorem wrap32_spec (x : Int) :
    wrap32 x = x - 4294967296 * ((x + 2147483648) / 4294967296) := by
  unfold wrap32; omega

theorem wrap32_sub_mul (x t : Int) : wrap32 (x - 4294967296 * t) = wrap32 x := by
  unfold wrap32; omega

theorem wrap32_add_left (x y : Int) : wrap32 (wrap32 x + y) = wrap32 (x + y) := by
  unfold wrap32; omega

theorem wrap32_add_right (x y : Int) : wrap32 (x + wrap32 y) = wrap32 (x + y) := by
  unfold wrap32; omega

theorem wrap32_mul_right (x y : Int) : wrap32 (x * wrap32 y) = wrap32 (x * y) := by
  rw [wrap32_spec y, show x * (y - 4294967296 * ((y + 2147483648) / 4294967296)) =
    x * y - 4294967296 * (x * ((y + 2147483648) / 4294967296)) from by ring, wrap32_sub_mul]

theorem srcSteps_pos : ∀ (k : Nat), 1 ≤ k → ∀ (s d : Int), srcSteps k s d = wrap32 (s + k * d)
  | 1, _, s, d => by
    show fixedAdd s d = wrap32 (s + ((1 : Nat) : Int) * d)
    rw [fixedAdd]; norm_num
  | k+2, _, s, d => by
    show srcSteps (k+1) (fixedAdd s d) d = _
    rw [srcSteps_pos (k+1) (by omega) (fixedAdd s d) d, fixedAdd, wrap32_add_left]
    congr 1
    push_cast
    ring

theorem srcSteps_add : ∀ (j k : Nat) (s d : Int),
    srcSteps (j + k) s d = srcSteps k (srcSteps j s d) d
  | 0, k, s, d => by rw [Nat.zero_add]; rfl
  | j+1, k, s, d => by
    rw [show j + 1 + k = (j + k) + 1 from by omega]
    show srcSteps (j + k) (fixedAdd s d) d = _
    rw [srcSteps_add j k (fixedAdd s d) d]
    rfl

/-- C4: the 2-D call with destination area [0,2)×[0,2), source area
[0,4)×[0,4) (as fixed32 bit patterns) and a mask covering the destination
invokes the processor exactly 4 times, once per distinct destination
coordinate pair, in nested enumeration order (axis 0 innermost), each full
2-tuple being produced before the next invocation. -/
theorem claim4_two_dim_nested :
    scaleTrace 2 ⟨fun _ => 0, fun _ => 2, fun _ => 0, fun _ => 131072, fun _ => 0, fun _ => 2⟩ =
      [([0, 0], [0, 0]), ([1, 0], [65536, 0]),
       ([0, 1], [0, 65536]), ([1, 1], [65536, 65536])] := by
  decide

/-- C9: the decimal-literal constructor calls `fixed32(3, 5)`,
`fixed32(3, 50)` and `fixed32(3, 500)` all yield the same bit pattern,
equal to 3.5 (bit pattern 114688 = 7·2^14) within one unit of the rational
scale factor's rounding error, because the one-, two- and three-digit
decimal arguments normalize to the same four-digit numerator 5000. -/
theorem claim9_decimal_constructor :
    fixed32 3 50 = fixed32 3 5 ∧ fixed32 3 500 = fixed32 3 5 ∧
    (fixed32 3 5 - 114688).natAbs ≤ 1 := by
  decide

/-- C5: if any axis of the destination area or of the source area has zero
width, the whole call is a no-op: the invocation trace is empty, so the
processor is never invoked, whatever the mask is.  In the embedding the
degenerate check is the first branch of `scaleTrace`, taken before
`srcDelta` (the per-axis division) is ever evaluated, mirroring the early
`return`s of lines 325-328 placed before the division of line 336. -/
theorem claim5_degenerate_noop (D : Nat) (P : ScaleIn) (i : Nat) (hi : i < D)
    (h : P.dstA i = P.dstB i ∨ P.srcA i = P.srcB i) :
    scaleTrace D P = [] := by
  have hdeg : degenerate D P = true := by
    unfold degenerate
    rw [List.any_eq_true]
    refine ⟨i, List.mem_range.mpr hi, ?_⟩
    rcases h with h | h <;> simp [h]
  unfold scaleTrace
  simp [hdeg]

theorem claim5_witness :
    scaleTrace 1 ⟨fun _ => 3, fun _ => 3, fun _ => 0, fun _ => 32768, fun _ => 0, fun _ => 4⟩
      = [] :=
  claim5_degenerate_noop 1 _ 0 (by decide) (Or.inl rfl)

/-- C6: if on some axis the reversal-normalized destination range lies
entirely outside the normalized mask (`ndB < nmA` or `ndA ≥ nmB`), the
whole call produces an empty invocation trace: the out-of-mask axis aborts
the entire multi-dimensional iteration, not just that axis. -/
theorem claim6_mask_rejection (D : Nat) (P : ScaleIn) (i : Nat) (hi : i < D)
    (h : ndB P i < nmA P i ∨ nmB P i ≤ ndA P i) :
    scaleTrace D P = [] := by
  unfold scaleTrace
  by_cases hdeg : degenerate D P = true
  · simp [hdeg]
  · have hrej : rejected D P = true := by
      unfold rejected
      rw [List.any_eq_true]
      refine ⟨i, List.mem_range.mpr hi, ?_⟩
      rcases h with h | h <;> simp [h]
    simp [hdeg, hrej]

theorem claim6_witness :
    scaleTrace 1 ⟨fun _ => 0, fun _ => 2, fun _ => 0, fun _ => 32768, fun _ => 5, fun _ => 7⟩
      = [] :=
  claim6_mask_rejection 1 _ 0 (by decide) (Or.inl (by decide))

/-- C3 (counterexample): swapping the destination endpoints does not, in
general, yield the forward source sequence in reverse order.  First input:
destination [0,2), source bit patterns (0, 98305) — the width 98305 is not
divisible by 2, so the rounding of delta shifts the reversed samples
(forward sources [0],[49152]; reversed sources [49153],[1]).  Second
input: destination [0,2), source bit patterns (0, 2) — the endpoints have
equal integer parts, so `internal::min`/`internal::max` (which compare
through the int conversion) pick the wrong endpoint (forward sources
[2],[3]; reversed sources [-1],[-2]). -/
theorem claim3_counterexample :
    ((scaleTrace 1 ⟨fun _ => 2, fun _ => 0, fun _ => 0, fun _ => 98305, fun _ => 0, fun _ => 2⟩).map
        Prod.snd ≠
      ((scaleTrace 1 ⟨fun _ => 0, fun _ => 2, fun _ => 0, fun _ => 98305, fun _ => 0, fun _ => 2⟩).map
        Prod.snd).reverse) ∧
    ((scaleTrace 1 ⟨fun _ => 2, fun _ => 0, fun _ => 0, fun _ => 2, fun _ => 0, fun _ => 2⟩).map
        Prod.snd ≠
      ((scaleTrace 1 ⟨fun _ => 0, fun _ => 2, fun _ => 0, fun _ => 2, fun _ => 0, fun _ => 2⟩).map
        Prod.snd).reverse) := by
  decide

/-- C7 (counterexample): the per-axis source start computed by `scale` is
not the fixed-point minimum of the two source endpoints.  With destination
[0,2) and source bit patterns (40960, 49152) (1.25 and 1.5), the delta is
4096 ≥ 0, yet the computed start is 49152, not the fixed-point minimum
40960: `internal::min` compares the operands through the implicit int
conversion, so operands with equal integer parts compare equal and the
second one is returned. -/
theorem claim7_counterexample :
    0 ≤ srcDelta ⟨fun _ => 0, fun _ => 2, fun _ => 40960, fun _ => 49152, fun _ => 0, fun _ => 2⟩ 0 ∧
    srcStart0 ⟨fun _ => 0, fun _ => 2, fun _ => 40960, fun _ => 49152, fun _ => 0, fun _ => 2⟩ 0 ≠
      min (nsA ⟨fun _ => 0, fun _ => 2, fun _ => 40960, fun _ => 49152, fun _ => 0, fun _ => 2⟩ 0)
        (nsB ⟨fun _ => 0, fun _ => 2, fun _ => 40960, fun _ => 49152, fun _ => 0, fun _ => 2⟩ 0) := by
  decide

/-- C8 (counterexample): `fixed(a) / fixed(b)` does not always convert
back to `a / b` truncated toward negative infinity.  At a = -1, b = 65535
(both representable, all intermediates within the widened range), the
fixed-point quotient truncates toward zero to the bit pattern 0, so the
conversion yields 0, while floor(-1 / 65535) = -1. -/
theorem claim8_counterexample :
    fixedToInt (fixedDiv (fixedOfInt (-1)) (fixedOfInt 65535)) = 0 ∧
    Int.fdiv (-1) 65535 = -1 := by
  decide

theorem axisStart_floor (d sa sb : Int) (h : fixedToInt sa ≠ fixedToInt sb) :
    axisStart d sa sb = if 0 ≤ d then min sa sb else fixedAdd (max sa sb) d := by
  have hca : fixedToInt sa = sa / 32768 := Int.fdiv_eq_ediv sa (by norm_num)
  have hcb : fixedToInt sb = sb / 32768 := Int.fdiv_eq_ediv sb (by norm_num)
  unfold axisStart fmin fmax
  rcases lt_or_gt_of_ne (fun hh : sa = sb => h (by rw [hh])) with hlt | hgt
  · have h1 : fixedToInt sa < fixedToInt sb := by
      rw [hca, hcb] at h ⊢; omega
    have h2 : ¬ fixedToInt sb < fixedToInt sa := by omega
    rw [if_pos h1, if_neg h2, min_eq_left hlt.le, max_eq_right hlt.le]
  · have h1 : fixedToInt sb < fixedToInt sa := by
      rw [hca, hcb] at h ⊢; omega
    have h2 : ¬ fixedToInt sa < fixedToInt sb := by omega
    rw [if_neg h2, if_pos h1, min_eq_right hgt.le, max_eq_left hgt.le]

/-- C7 (amended): the per-axis source start computed by `scale` uses
`internal::min`/`internal::max`, which compare the two fixed-point operands
by their integer parts (through the implicit int conversion), not by their
full fixed-point values.  When the integer parts of the two (post-reversal)
source endpoints differ, this agrees with the genuine fixed-point
minimum/maximum — including fractional parts — so the start is
`min(source.a, source.b)` when `delta ≥ 0` and `max(source.a, source.b) +
delta` otherwise; on equal integer parts the second operand is selected
instead (see the counterexample). -/
theorem claim7_source_start_amended (P : ScaleIn) (i : Nat)
    (h : fixedToInt (nsA P i) ≠ fixedToInt (nsB P i)) :
    srcStart0 P i =
      if 0 ≤ srcDelta P i then min (nsA P i) (nsB P i)
      else fixedAdd (max (nsA P i) (nsB P i)) (srcDelta P i) :=
  axisStart_floor _ _ _ h

theorem claim7_witness :
    srcStart0 ⟨fun _ => 0, fun _ => 2, fun _ => 0, fun _ => 98304, fun _ => 0, fun _ => 2⟩ 0 =
      if 0 ≤ srcDelta ⟨fun _ => 0, fun _ => 2, fun _ => 0, fun _ => 98304, fun _ => 0, fun _ => 2⟩ 0
      then min (nsA ⟨fun _ => 0, fun _ => 2, fun _ => 0, fun _ => 98304, fun _ => 0, fun _ => 2⟩ 0)
        (nsB ⟨fun _ => 0, fun _ => 2, fun _ => 0, fun _ => 98304, fun _ => 0, fun _ => 2⟩ 0)
      else fixedAdd
        (max (nsA ⟨fun _ => 0, fun _ => 2, fun _ => 0, fun _ => 98304, fun _ => 0, fun _ => 2⟩ 0)
          (nsB ⟨fun _ => 0, fun _ => 2, fun _ => 0, fun _ => 98304, fun _ => 0, fun _ => 2⟩ 0))
        (srcDelta ⟨fun _ => 0, fun _ => 2, fun _ => 0, fun _ => 98304, fun _ => 0, fun _ => 2⟩ 0) :=
  claim7_source_start_amended _ 0 (by decide)

theorem tdiv_mul_right_nonneg (x y k : Int) (hx : 0 ≤ x) (hy : 0 ≤ y) (hk : 0 < k) :
    Int.tdiv (x * k) (y * k) = Int.tdiv x y := by
  rw [Int.tdiv_eq_ediv (mul_nonneg hx hk.le) (mul_nonneg hy hk.le), Int.tdiv_eq_ediv hx hy,
    mul_comm x k, mul_comm y k, Int.mul_ediv_mul_of_pos _ _ hk]

theorem tdiv_mul_right (x y k : Int) (hk : 0 < k) :
    Int.tdiv (x * k) (y * k) = Int.tdiv x y := by
  rcases le_or_lt 0 x with hx | hx <;> rcases le_or_lt 0 y with hy | hy
  · exact tdiv_mul_right_nonneg x y k hx hy hk
  · rw [show y * k = -(-y * k) from by ring, Int.tdiv_neg,
      tdiv_mul_right_nonneg x (-y) k hx (by omega) hk, ← Int.tdiv_neg, neg_neg]
  · rw [show x * k = -(-x * k) from by ring, Int.neg_tdiv,
      tdiv_mul_right_nonneg (-x) y k (by omega) hy hk, ← Int.neg_tdiv, neg_neg]
  · rw [show x * k = -(-x * k) from by ring, show y * k = -(-y * k) from by ring,
      Int.neg_tdiv_neg, tdiv_mul_right_nonneg (-x) (-y) k (by omega) (by omega) hk,
      ← Int.neg_tdiv_neg, neg_neg, neg_neg]

theorem ediv_ediv_pos (x b c : Int) (hb : 0 < b) (hc : 0 < c) : x / b / c = x / (b * c) := by
  have hbc : 0 < b * c := mul_pos hb hc
  apply le_antisymm
  · have h1 : x < (x / (b * c) + 1) * (b * c) := Int.lt_ediv_add_one_mul_self x hbc
    have h2 : x / b < (x / (b * c) + 1) * c := by
      rw [Int.ediv_lt_iff_lt_mul hb]
      calc x < (x / (b * c) + 1) * (b * c) := h1
        _ = (x / (b * c) + 1) * c * b := by ring
    have h3 : x / b / c < x / (b * c) + 1 := by
      rw [Int.ediv_lt_iff_lt_mul hc]
      exact h2
    omega
  · rw [Int.le_ediv_iff_mul_le hc, Int.le_ediv_iff_mul_le hb]
    calc x / (b * c) * c * b = x / (b * c) * (b * c) := by ring
      _ ≤ x := Int.ediv_mul_le x hbc.ne'

theorem fdiv_neg_neg : ∀ (a b : Int), Int.fdiv (-a) (-b) = Int.fdiv a b
  | Int.ofNat 0, b => by
    show Int.fdiv (-(0 : Int)) (-b) = Int.fdiv 0 b
    rw [neg_zero, Int.zero_fdiv, Int.zero_fdiv]
  | a, Int.ofNat 0 => by
    show Int.fdiv (-a) (-(0 : Int)) = Int.fdiv a 0
    rw [neg_zero, Int.fdiv_zero, Int.fdiv_zero]
  | Int.ofNat (m+1), Int.ofNat (n+1) => rfl
  | Int.ofNat (m+1), Int.negSucc n => rfl
  | Int.negSucc m, Int.ofNat (n+1) => rfl
  | Int.negSucc m, Int.negSucc n => rfl

theorem fixedDiv_floor_pos (a b : Int) (ha1 : -65535 ≤ a) (ha2 : a ≤ 65535)
    (hb0 : 0 < b) (hb2 : b ≤ 65535)
    (hexc : 0 ≤ a ∨ b ∣ a * 32768 ∨ ¬ ((32768 : Int) ∣ Int.tdiv (a * 32768) b)) :
    fixedToInt (fixedDiv (fixedOfInt a) (fixedOfInt b)) = Int.fdiv a b := by
  have hwa : fixedOfInt a = a * 32768 := wrap32_eq_self (by omega) (by omega)
  have hwb : fixedOfInt b = b * 32768 := wrap32_eq_self (by omega) (by omega)
  have hq : Int.tdiv (a * 32768 * 32768) (b * 32768) = Int.tdiv (a * 32768) b :=
    tdiv_mul_right (a * 32768) b 32768 (by norm_num)
  set Q := Int.tdiv (a * 32768) b with hQ
  have hQbound : Q.natAbs ≤ 65535 * 32768 := by
    have h1 : Q.natAbs = (a * 32768).natAbs / b.natAbs := Int.natAbs_tdiv _ _
    have h2 : (a * 32768).natAbs ≤ 65535 * 32768 := by omega
    calc Q.natAbs = (a * 32768).natAbs / b.natAbs := h1
      _ ≤ (a * 32768).natAbs := Nat.div_le_self _ _
      _ ≤ 65535 * 32768 := h2
  have hwq : fixedDiv (fixedOfInt a) (fixedOfInt b) = Q := by
    rw [hwa, hwb]
    unfold fixedDiv
    rw [hq]
    exact wrap32_eq_self (by omega) (by omega)
  rw [hwq]
  unfold fixedToInt
  rw [Int.fdiv_eq_ediv Q (by norm_num), Int.fdiv_eq_ediv a hb0.le]
  by_cases hcase : 0 ≤ a ∨ b ∣ a * 32768
  · have hQe : Q = a * 32768 / b := by
      rcases hcase with hc | hc
      · rw [hQ]
        exact Int.tdiv_eq_ediv (by omega) hb0.le
      · rw [hQ]
        exact Int.tdiv_eq_ediv_of_dvd hc
    rw [hQe, ediv_ediv_pos _ _ _ hb0 (by norm_num), mul_comm a 32768, mul_comm b 32768,
      Int.mul_ediv_mul_of_pos a b (by norm_num : (0 : Int) < 32768)]
  · have hx : ¬ ((32768 : Int) ∣ Q) := by
      rcases hexc with h | h | h
      · exact absurd (Or.inl h) hcase
      · exact absurd (Or.inr h) hcase
      · exact h
    have hneg : a < 0 := by
      by_contra hc
      exact hcase (Or.inl (by omega))
    have hX : a * 32768 < 0 := by omega
    have hndvd : ¬ b ∣ a * 32768 := fun hc => hcase (Or.inr hc)
    -- the truncated quotient of a negative, inexact division is one above the floor
    have key : Q = a * 32768 / b + 1 := by
      have e1 : b * (a * 32768 / b) + a * 32768 % b = a * 32768 := Int.ediv_add_emod _ _
      have e2 : b * (-(a * 32768) / b) + -(a * 32768) % b = -(a * 32768) :=
        Int.ediv_add_emod _ _
      have r1pos : 0 < a * 32768 % b := by
        have h0 : 0 ≤ a * 32768 % b := Int.emod_nonneg _ hb0.ne'
        have hne : a * 32768 % b ≠ 0 := fun hc =>
          hndvd (Int.dvd_iff_emod_eq_zero.mpr hc)
        omega
      have r1lt : a * 32768 % b < b := Int.emod_lt_of_pos _ hb0
      have r2nonneg : 0 ≤ -(a * 32768) % b := Int.emod_nonneg _ hb0.ne'
      have r2lt : -(a * 32768) % b < b := Int.emod_lt_of_pos _ hb0
      have hsum : b * (a * 32768 / b + -(a * 32768) / b) =
          -(a * 32768 % b + -(a * 32768) % b) := by linarith [e1, e2, mul_add b (a * 32768 / b) (-(a * 32768) / b)]
      have hlt0 : a * 32768 / b + -(a * 32768) / b < 0 := by
        by_contra hc
        push_neg at hc
        have : 0 ≤ b * (a * 32768 / b + -(a * 32768) / b) := mul_nonneg hb0.le hc
        omega
      have hgt2 : -2 < a * 32768 / b + -(a * 32768) / b := by
        by_contra hc
        push_neg at hc
        have : b * (a * 32768 / b + -(a * 32768) / b) ≤ b * (-2) :=
          mul_le_mul_of_nonneg_left hc hb0.le
        omega
      have hsumq : a * 32768 / b + -(a * 32768) / b = -1 := by omega
      have hQ2 : Q = -(-(a * 32768) / b) := by
        have h5 : Int.tdiv (-(a * 32768)) b = -(a * 32768) / b :=
          Int.tdiv_eq_ediv (by omega) hb0.le
        have h6 : Int.tdiv (a * 32768) b = -(Int.tdiv (-(a * 32768)) b) := by
          rw [← Int.neg_tdiv, neg_neg]
        rw [hQ, h6, h5]
      omega
    rw [key] at hx ⊢
    have step : (a * 32768 / b + 1) / 32768 = a * 32768 / b / 32768 := by omega
    rw [step, ediv_ediv_pos _ _ _ hb0 (by norm_num), mul_comm a 32768, mul_comm b 32768,
      Int.mul_ediv_mul_of_pos a b (by norm_num : (0 : Int) < 32768)]

/-- C8 (amended): for a and b with |a| ≤ 65535, |b| ≤ 65535 and b ≠ 0 (the
widened-division range), converting to fixed point, dividing and converting
back yields a / b truncated toward negative infinity, except in one edge
case: when a / b is negative, b does not divide a·2^15 and the truncated
fixed-point quotient lands exactly on a multiple of 2^15 (that is, a / b
lies strictly within 2^-15 below an integer), the interior truncation
toward zero crosses that integer and the result is floor(a / b) + 1
instead (see the counterexample).  The conversion back to int is an
arithmetic shift (`fixedToInt`, flooring division by 2^15) throughout. -/
theorem claim8_floor_division_amended (a b : Int)
    (ha1 : -65535 ≤ a) (ha2 : a ≤ 65535) (hb1 : -65535 ≤ b) (hb2 : b ≤ 65535) (hb : b ≠ 0)
    (hexc : 0 ≤ a * b ∨ b ∣ a * 32768 ∨ ¬ ((32768 : Int) ∣ Int.tdiv (a * 32768) b)) :
    fixedToInt (fixedDiv (fixedOfInt a) (fixedOfInt b)) = Int.fdiv a b := by
  rcases lt_or_gt_of_ne hb with hneg | hpos
  · have hwa : fixedOfInt a = a * 32768 := wrap32_eq_self (by omega) (by omega)
    have hwb : fixedOfInt b = b * 32768 := wrap32_eq_self (by omega) (by omega)
    have hwa' : fixedOfInt (-a) = -(a * 32768) := by
      unfold fixedOfInt
      rw [show (-a) * 32768 = -(a * 32768) from by ring]
      exact wrap32_eq_self (by omega) (by omega)
    have hwb' : fixedOfInt (-b) = -(b * 32768) := by
      unfold fixedOfInt
      rw [show (-b) * 32768 = -(b * 32768) from by ring]
      exact wrap32_eq_self (by omega) (by omega)
    have h1 : fixedDiv (fixedOfInt a) (fixedOfInt b) =
        fixedDiv (fixedOfInt (-a)) (fixedOfInt (-b)) := by
      rw [hwa, hwb, hwa', hwb']
      unfold fixedDiv
      rw [show -(a * 32768) * 32768 = -(a * 32768 * 32768) from by ring, Int.neg_tdiv_neg]
    rw [h1, ← fdiv_neg_neg a b]
    apply fixedDiv_floor_pos (-a) (-b) (by omega) (by omega) (by omega) (by omega)
    rcases hexc with h | h | h
    · left
      by_contra hc
      push_neg at hc
      have ha0 : 0 < a := by omega
      have : a * b < 0 := mul_neg_of_pos_of_neg ha0 hneg
      omega
    · right; left
      rw [show (-a) * 32768 = -(a * 32768) from by ring]
      exact (neg_dvd.mpr ((dvd_neg).mpr h))
    · right; right
      rw [show (-a) * 32768 = -(a * 32768) from by ring, Int.neg_tdiv_neg]
      exact h
  · apply fixedDiv_floor_pos a b ha1 ha2 hpos hb2
    rcases hexc with h | h | h
    · left
      by_contra hc
      push_neg at hc
      have : a * b < 0 := mul_neg_of_neg_of_pos hc hpos
      omega
    · exact Or.inr (Or.inl h)
    · exact Or.inr (Or.inr h)

theorem claim8_witness :
    fixedToInt (fixedDiv (fixedOfInt (-7)) (fixedOfInt 2)) = Int.fdiv (-7) 2 :=
  claim8_floor_division_amended (-7) 2 (by decide) (by decide) (by decide) (by decide)
    (by decide) (Or.inr (Or.inl (by decide)))

theorem fixedToInt_mul (x : Int) : fixedToInt (x * 32768) = x :=
  Int.mul_fdiv_cancel x (by norm_num)

theorem snapshot_one (p : PointN) (v : Int) : snapshot 1 (fupdate p 0 v) = [v] := by
  show [fupdate p 0 v 0] = [v]
  simp [fupdate]

theorem scaleTrace_one_eq (P : ScaleIn)
    (h1 : P.dstA 0 ≠ P.dstB 0) (h2 : P.srcA 0 ≠ P.srcB 0)
    (h3 : ¬ (ndB P 0 < nmA P 0)) (h4 : ¬ (nmB P 0 ≤ ndA P 0)) :
    scaleTrace 1 P =
      (List.range (clipB P 0 - clipA P 0).toNat).map fun (j : Nat) =>
        ([clipA P 0 + (j : Int)], [srcSteps j (srcStart P 0) (srcDelta P 0)]) := by
  have hdeg : degenerate 1 P = false := by
    unfold degenerate
    rw [List.any_eq_false]
    intro i hi
    have hi0 : i = 0 := by simpa using hi
    subst hi0
    simp [h1, h2]
  have hrej : rejected 1 P = false := by
    unfold rejected
    rw [List.any_eq_false]
    intro i hi
    have hi0 : i = 0 := by simpa using hi
    subst hi0
    simp [h3, h4]
  unfold scaleTrace
  rw [hdeg, hrej]
  show iterTrace 1 (clipA P) (clipB P) (srcStart P) (srcDelta P) 0 (fun _ => 0) (fun _ => 0) = _
  rw [iterTrace]
  refine List.map_congr_left fun j hj => ?_
  rw [snapshot_one, snapshot_one]

theorem runWrite_single (src dst : Int → Int) (x y : Int) :
    runWrite src dst [([x], [y])] = fun j => if j = x then src (fixedToInt y) else dst j :=
  rfl

theorem runWrite_append (src : Int → Int) :
    ∀ (l1 l2 : List (List Int × List Int)) (dst : Int → Int),
      runWrite src dst (l1 ++ l2) = runWrite src (runWrite src dst l1) l2
  | [], l2, dst => rfl
  | e :: t, l2, dst => by
    show runWrite src _ (t ++ l2) = _
    rw [runWrite_append src t l2 _]
    rfl

theorem runWrite_range (src : Int → Int) :
    ∀ (n : Nat) (dst : Int → Int) (a : Int) (g : Nat → Int) (j0 : Nat), j0 < n →
      runWrite src dst
          ((List.range n).map fun (k : Nat) => ([a + (k : Int)], [g k])) (a + (j0 : Int)) =
        src (fixedToInt (g j0))
  | 0, _, _, _, j0, h => (Nat.not_lt_zero j0 h).elim
  | n+1, dst, a, g, j0, h => by
    rw [List.range_succ, List.map_append, runWrite_append, List.map_cons, List.map_nil,
      runWrite_single]
    by_cases hj : j0 = n
    · subst hj
      simp
    · have hne : a + (j0 : Int) ≠ a + (n : Int) := by omega
      simp only [if_neg hne]
      exact runWrite_range src n dst a g j0 (by omega)

/-- C1: for a non-degenerate forward 1-D destination range [da, db) and a
source range [sa, sb) of equal width (passed as fixed-point conversions of
the integer endpoints), `scale` with the `write` processor and a mask
covering the whole destination range copies the source sequence exactly in
destination order: the destination buffer at every index k in [da, db)
receives the source element at index sa + (k - da).  The bounds on the
endpoints keep every intermediate `int32_t` computation of the call inside
its representable range. -/
theorem claim1_identity_copy (da db sa sb k : Int) (srcBuf dstBuf : Int → Int)
    (hd1 : -16384 ≤ da) (hd2 : da < db) (hd3 : db ≤ 16384)
    (hs1 : -16384 ≤ sa) (hs2 : sb ≤ 16384)
    (hw : sb - sa = db - da)
    (hk1 : da ≤ k) (hk2 : k < db) :
    runWrite srcBuf dstBuf
      (scaleTrace 1 ⟨fun _ => da, fun _ => db, fun _ => fixedOfInt sa, fun _ => fixedOfInt sb,
        fun _ => da, fun _ => db⟩) k
      = srcBuf (sa + (k - da)) := by
  set P : ScaleIn := ⟨fun _ => da, fun _ => db, fun _ => fixedOfInt sa, fun _ => fixedOfInt sb,
    fun _ => da, fun _ => db⟩ with hP
  have hsa : fixedOfInt sa = sa * 32768 := wrap32_eq_self (by omega) (by omega)
  have hsb : fixedOfInt sb = sb * 32768 := wrap32_eq_self (by omega) (by omega)
  have hA : ndA P 0 = da := by
    show (if db < da then db else da) = da
    exact if_neg (by omega)
  have hB : ndB P 0 = db := by
    show (if db < da then da else db) = db
    exact if_neg (by omega)
  have hsA : nsA P 0 = sa * 32768 := by
    show (if db < da then fixedOfInt sb else fixedOfInt sa) = sa * 32768
    rw [if_neg (by omega), hsa]
  have hsB : nsB P 0 = sb * 32768 := by
    show (if db < da then fixedOfInt sa else fixedOfInt sb) = sb * 32768
    rw [if_neg (by omega), hsb]
  have hmA : nmA P 0 = da := by
    show (if db < da then db else da) = da
    exact if_neg (by omega)
  have hmB : nmB P 0 = db := by
    show (if db < da then da else db) = db
    exact if_neg (by omega)
  have hdelta : srcDelta P 0 = 32768 := by
    show wrap32 (Int.tdiv (wrap32 (nsB P 0 - nsA P 0)) (wrap32 (ndB P 0 - ndA P 0))) = 32768
    rw [hsA, hsB, hA, hB, wrap32_eq_self (x := sb * 32768 - sa * 32768) (by omega) (by omega),
      wrap32_eq_self (x := db - da) (by omega) (by omega),
      show sb * 32768 - sa * 32768 = (db - da) * 32768 from by omega,
      Int.mul_tdiv_cancel_left _ (by omega : db - da ≠ 0)]
    exact wrap32_eq_self (by norm_num) (by norm_num)
  have hstart0 : srcStart0 P 0 = sa * 32768 := by
    show axisStart (srcDelta P 0) (nsA P 0) (nsB P 0) = sa * 32768
    rw [hdelta, hsA, hsB]
    unfold axisStart fmin
    rw [if_pos (by norm_num : (0 : Int) ≤ 32768), fixedToInt_mul, fixedToInt_mul,
      if_pos (by omega : sa < sb)]
  have hstart : srcStart P 0 = sa * 32768 := by
    show (if ndA P 0 < nmA P 0
      then wrap32 (srcStart0 P 0 + wrap32 (srcDelta P 0 * wrap32 (nmA P 0 - ndA P 0)))
      else srcStart0 P 0) = sa * 32768
    rw [hA, hmA, if_neg (lt_irrefl da), hstart0]
  have hclipA : clipA P 0 = da := by
    show (if ndA P 0 < nmA P 0 then nmA P 0 else ndA P 0) = da
    rw [hA, hmA, if_neg (lt_irrefl da)]
  have hclipB : clipB P 0 = db := by
    show (if nmB P 0 ≤ ndB P 0 then nmB P 0 else ndB P 0) = db
    rw [hB, hmB, if_pos le_rfl]
  rw [scaleTrace_one_eq P (show da ≠ db from by omega)
    (show fixedOfInt sa ≠ fixedOfInt sb from by rw [hsa, hsb]; omega)
    (show ¬ (ndB P 0 < nmA P 0) from by rw [hB, hmA]; omega)
    (show ¬ (nmB P 0 ≤ ndA P 0) from by rw [hmB, hA]; omega)]
  rw [hclipA, hclipB, hstart, hdelta]
  have hlist :
      ((List.range (db - da).toNat).map fun (j : Nat) =>
        (([da + (j : Int)], [srcSteps j (sa * 32768) 32768]) : List Int × List Int))
      = (List.range (db - da).toNat).map fun (j : Nat) =>
          ([da + (j : Int)], [(fun (j' : Nat) => (sa + (j' : Int)) * 32768) j]) := by
    refine List.map_congr_left fun j hj => ?_
    have hjn : (j : Int) < db - da := by
      have := List.mem_range.mp hj
      omega
    have hstep : srcSteps j (sa * 32768) 32768 = (sa + (j : Int)) * 32768 := by
      rcases Nat.eq_zero_or_pos j with h0 | h0
      · subst h0
        show sa * 32768 = (sa + ((0 : Nat) : Int)) * 32768
        norm_num
      · rw [srcSteps_pos j h0,
          show sa * 32768 + (j : Int) * 32768 = (sa + (j : Int)) * 32768 from by ring]
        exact wrap32_eq_self (by omega) (by omega)
    rw [hstep]
  rw [hlist]
  have hk : k = da + (((k - da).toNat : Nat) : Int) := by omega
  rw [hk, runWrite_range srcBuf (db - da).toNat dstBuf da
    (fun (j' : Nat) => (sa + (j' : Int)) * 32768) (k - da).toNat (by omega), fixedToInt_mul]
  congr 1
  omega

theorem fixedToInt_lt_of_lt {x y : Int} (h : fixedToInt x < fixedToInt y) : x < y := by
  unfold fixedToInt at h
  rw [Int.fdiv_eq_ediv x (by norm_num), Int.fdiv_eq_ediv y (by norm_num)] at h
  omega

theorem scaleTrace_one_snd (P : ScaleIn) (a b s d : Int)
    (h1 : P.dstA 0 ≠ P.dstB 0) (h2 : P.srcA 0 ≠ P.srcB 0)
    (h3 : ¬ (ndB P 0 < nmA P 0)) (h4 : ¬ (nmB P 0 ≤ ndA P 0))
    (ha : clipA P 0 = a) (hb : clipB P 0 = b)
    (hs : srcStart P 0 = s) (hd : srcDelta P 0 = d)
    (hrange : ∀ j : Nat, (j : Int) < b - a →
      -2147483648 ≤ s + (j : Int) * d ∧ s + (j : Int) * d < 2147483648) :
    (scaleTrace 1 P).map Prod.snd =
      (List.range (b - a).toNat).map fun (j : Nat) => [s + (j : Int) * d] := by
  rw [scaleTrace_one_eq P h1 h2 h3 h4, ha, hb, hs, hd, List.map_map]
  refine List.map_congr_left fun j hj => ?_
  have hjn : (j : Int) < b - a := by
    have := List.mem_range.mp hj
    omega
  show [srcSteps j s d] = [s + (j : Int) * d]
  rcases Nat.eq_zero_or_pos j with h0 | h0
  · subst h0
    show ([s] : List Int) = [s + ((0 : Nat) : Int) * d]
    norm_num
  · rw [srcSteps_pos j h0, wrap32_eq_self (hrange j hjn).1 (hrange j hjn).2]

theorem list_reverse_arith (N : Nat) (u du v dv : Int)
    (h : ∀ i : Nat, i < N → v + (i : Int) * dv = u + (((N - 1 - i : Nat)) : Int) * du) :
    (List.range N).map (fun j : Nat => ([v + (j : Int) * dv] : List Int)) =
      ((List.range N).map (fun j : Nat => ([u + (j : Int) * du] : List Int))).reverse := by
  apply List.ext_getElem
  · simp
  · intro i h1 h2
    have hiN : i < N := by simpa using h1
    simp only [List.getElem_map, List.getElem_range, List.getElem_reverse, List.length_map,
      List.length_range]
    rw [h i hiN]

/-- C3 (amended): for a forward 1-D destination range [da, db) with a mask
covering the destination, swapping the destination endpoints while keeping
the source range fixed yields the source sequence of the unreversed call in
reverse order, provided the source width (in fixed-point bits) is an exact
multiple of the destination width — so the per-axis delta divides without a
truncation remainder — and the two source endpoints have distinct integer
parts — so `internal::min`/`internal::max`, which compare through the int
conversion, select the true fixed-point extremes.  Without either proviso
the reversed samples shift, as the counterexample shows.  The bounds keep
all `int32_t` arithmetic of the call exact. -/
theorem claim3_reversal_amended (da db sab sbb : Int)
    (hdab : da < db) (hn : db - da ≤ 1073741824)
    (hsr1 : -1073741823 ≤ sab) (hsr2 : sab ≤ 1073741823)
    (hsr3 : -1073741823 ≤ sbb) (hsr4 : sbb ≤ 1073741823)
    (hfl : fixedToInt sab ≠ fixedToInt sbb)
    (hdvd : (db - da) ∣ (sbb - sab)) :
    (scaleTrace 1 ⟨fun _ => db, fun _ => da, fun _ => sab, fun _ => sbb,
        fun _ => da, fun _ => db⟩).map Prod.snd =
      ((scaleTrace 1 ⟨fun _ => da, fun _ => db, fun _ => sab, fun _ => sbb,
        fun _ => da, fun _ => db⟩).map Prod.snd).reverse := by
  set Pf : ScaleIn := ⟨fun _ => da, fun _ => db, fun _ => sab, fun _ => sbb,
    fun _ => da, fun _ => db⟩ with hPf
  set Pr : ScaleIn := ⟨fun _ => db, fun _ => da, fun _ => sab, fun _ => sbb,
    fun _ => da, fun _ => db⟩ with hPr
  have hn0 : 0 < db - da := by omega
  set d : Int := Int.tdiv (sbb - sab) (db - da) with hdDef
  have hmulc : d * (db - da) = sbb - sab := Int.tdiv_mul_cancel hdvd
  have hdabs : d.natAbs ≤ (sbb - sab).natAbs := by
    have h1 : d.natAbs = (sbb - sab).natAbs / (db - da).natAbs := by
      rw [hdDef]
      exact Int.natAbs_tdiv _ _
    rw [h1]
    exact Nat.div_le_self _ _
  have hdbnd : -2147483646 ≤ d ∧ d ≤ 2147483646 := by omega
  -- shared facts about the two calls
  have hsne : sab ≠ sbb := fun hc => hfl (by rw [hc])
  have hAf : ndA Pf 0 = da := by
    show (if db < da then db else da) = da
    exact if_neg (by omega)
  have hBf : ndB Pf 0 = db := by
    show (if db < da then da else db) = db
    exact if_neg (by omega)
  have hsAf : nsA Pf 0 = sab := by
    show (if db < da then sbb else sab) = sab
    exact if_neg (by omega)
  have hsBf : nsB Pf 0 = sbb := by
    show (if db < da then sab else sbb) = sbb
    exact if_neg (by omega)
  have hmAf : nmA Pf 0 = da := by
    show (if db < da then db else da) = da
    exact if_neg (by omega)
  have hmBf : nmB Pf 0 = db := by
    show (if db < da then da else db) = db
    exact if_neg (by omega)
  have hAr : ndA Pr 0 = da := by
    show (if da < db then da else db) = da
    exact if_pos hdab
  have hBr : ndB Pr 0 = db := by
    show (if da < db then db else da) = db
    exact if_pos hdab
  have hsAr : nsA Pr 0 = sbb := by
    show (if da < db then sbb else sab) = sbb
    exact if_pos hdab
  have hsBr : nsB Pr 0 = sab := by
    show (if da < db then sab else sbb) = sab
    exact if_pos hdab
  have hmAr : nmA Pr 0 = da := by
    show (if db < da then db else da) = da
    exact if_neg (by omega)
  have hmBr : nmB Pr 0 = db := by
    show (if db < da then da else db) = db
    exact if_neg (by omega)
  have hdeltaf : srcDelta Pf 0 = d := by
    show wrap32 (Int.tdiv (wrap32 (nsB Pf 0 - nsA Pf 0)) (wrap32 (ndB Pf 0 - ndA Pf 0))) = d
    rw [hsAf, hsBf, hAf, hBf, wrap32_eq_self (x := sbb - sab) (by omega) (by omega),
      wrap32_eq_self (x := db - da) (by omega) (by omega), ← hdDef]
    exact wrap32_eq_self (by omega) (by omega)
  have hdeltar : srcDelta Pr 0 = -d := by
    show wrap32 (Int.tdiv (wrap32 (nsB Pr 0 - nsA Pr 0)) (wrap32 (ndB Pr 0 - ndA Pr 0))) = -d
    rw [hsAr, hsBr, hAr, hBr, wrap32_eq_self (x := sab - sbb) (by omega) (by omega),
      wrap32_eq_self (x := db - da) (by omega) (by omega),
      show sab - sbb = -(sbb - sab) from by ring, Int.neg_tdiv, ← hdDef]
    exact wrap32_eq_self (by omega) (by omega)
  have hclipAf : clipA Pf 0 = da := by
    show (if ndA Pf 0 < nmA Pf 0 then nmA Pf 0 else ndA Pf 0) = da
    rw [hAf, hmAf, if_neg (lt_irrefl da)]
  have hclipBf : clipB Pf 0 = db := by
    show (if nmB Pf 0 ≤ ndB Pf 0 then nmB Pf 0 else ndB Pf 0) = db
    rw [hBf, hmBf, if_pos le_rfl]
  have hclipAr : clipA Pr 0 = da := by
    show (if ndA Pr 0 < nmA Pr 0 then nmA Pr 0 else ndA Pr 0) = da
    rw [hAr, hmAr, if_neg (lt_irrefl da)]
  have hclipBr : clipB Pr 0 = db := by
    show (if nmB Pr 0 ≤ ndB Pr 0 then nmB Pr 0 else ndB Pr 0) = db
    rw [hBr, hmBr, if_pos le_rfl]
  have hsidef : ∀ s0, srcStart0 Pf 0 = s0 → srcStart Pf 0 = s0 := by
    intro s0 hs0
    show (if ndA Pf 0 < nmA Pf 0
      then wrap32 (srcStart0 Pf 0 + wrap32 (srcDelta Pf 0 * wrap32 (nmA Pf 0 - ndA Pf 0)))
      else srcStart0 Pf 0) = s0
    rw [hAf, hmAf, if_neg (lt_irrefl da), hs0]
  have hsider : ∀ s0, srcStart0 Pr 0 = s0 → srcStart Pr 0 = s0 := by
    intro s0 hs0
    show (if ndA Pr 0 < nmA Pr 0
      then wrap32 (srcStart0 Pr 0 + wrap32 (srcDelta Pr 0 * wrap32 (nmA Pr 0 - ndA Pr 0)))
      else srcStart0 Pr 0) = s0
    rw [hAr, hmAr, if_neg (lt_irrefl da), hs0]
  have hONEf : ∀ s0, srcStart Pf 0 = s0 →
      (∀ j : Nat, (j : Int) < db - da →
        -2147483648 ≤ s0 + (j : Int) * d ∧ s0 + (j : Int) * d < 2147483648) →
      (scaleTrace 1 Pf).map Prod.snd =
        (List.range (db - da).toNat).map fun (j : Nat) => [s0 + (j : Int) * d] := by
    intro s0 hs0 hr
    exact scaleTrace_one_snd Pf da db s0 d (show da ≠ db from by omega)
      (show sab ≠ sbb from hsne)
      (show ¬ (ndB Pf 0 < nmA Pf 0) from by rw [hBf, hmAf]; omega)
      (show ¬ (nmB Pf 0 ≤ ndA Pf 0) from by rw [hmBf, hAf]; omega)
      hclipAf hclipBf hs0 hdeltaf hr
  have hONEr : ∀ s0, srcStart Pr 0 = s0 →
      (∀ j : Nat, (j : Int) < db - da →
        -2147483648 ≤ s0 + (j : Int) * (-d) ∧ s0 + (j : Int) * (-d) < 2147483648) →
      (scaleTrace 1 Pr).map Prod.snd =
        (List.range (db - da).toNat).map fun (j : Nat) => [s0 + (j : Int) * (-d)] := by
    intro s0 hs0 hr
    exact scaleTrace_one_snd Pr da db s0 (-d) (show db ≠ da from by omega)
      (show sab ≠ sbb from hsne)
      (show ¬ (ndB Pr 0 < nmA Pr 0) from by rw [hBr, hmAr]; omega)
      (show ¬ (nmB Pr 0 ≤ ndA Pr 0) from by rw [hmBr, hAr]; omega)
      hclipAr hclipBr hs0 hdeltar hr
  have hcast : ∀ i : Nat, i < (db - da).toNat →
      ((((db - da).toNat - 1 - i : Nat)) : Int) = db - da - 1 - (i : Int) := by
    intro i hi
    omega
  rcases lt_or_gt_of_ne hfl with hflt | hflt
  · -- forward source: sab < sbb, delta positive
    have hlt : sab < sbb := fixedToInt_lt_of_lt hflt
    have hd0 : 0 < d := by
      by_contra hc
      push_neg at hc
      have h5 : d * (db - da) ≤ 0 := mul_nonpos_iff.mpr (Or.inr ⟨hc, hn0.le⟩)
      omega
    have hdlew : d ≤ sbb - sab := by
      have h5 : d * 1 ≤ d * (db - da) := mul_le_mul_of_nonneg_left (by omega) hd0.le
      omega
    have hstart0f : srcStart0 Pf 0 = sab := by
      show axisStart (srcDelta Pf 0) (nsA Pf 0) (nsB Pf 0) = sab
      rw [hdeltaf, hsAf, hsBf]
      unfold axisStart fmin
      rw [if_pos hd0.le, if_pos hflt]
    have hstart0r : srcStart0 Pr 0 = sbb - d := by
      show axisStart (srcDelta Pr 0) (nsA Pr 0) (nsB Pr 0) = sbb - d
      rw [hdeltar, hsAr, hsBr]
      unfold axisStart fmax
      rw [if_neg (by omega), if_pos hflt]
      unfold fixedAdd
      rw [show sbb + -d = sbb - d from by ring]
      exact wrap32_eq_self (by omega) (by omega)
    have hrgf : ∀ j : Nat, (j : Int) < db - da →
        -2147483648 ≤ sab + (j : Int) * d ∧ sab + (j : Int) * d < 2147483648 := by
      intro j hj
      have h1 : 0 ≤ (j : Int) * d := mul_nonneg (by omega) hd0.le
      have h2 : (j : Int) * d ≤ (db - da - 1) * d := mul_le_mul_of_nonneg_right (by omega) hd0.le
      have h3 : (db - da - 1) * d = (sbb - sab) - d := by linear_combination hmulc
      constructor <;> linarith
    have hrgr : ∀ j : Nat, (j : Int) < db - da →
        -2147483648 ≤ (sbb - d) + (j : Int) * (-d) ∧
          (sbb - d) + (j : Int) * (-d) < 2147483648 := by
      intro j hj
      have h1 : 0 ≤ (j : Int) * d := mul_nonneg (by omega) hd0.le
      have h2 : (j : Int) * d ≤ (db - da - 1) * d := mul_le_mul_of_nonneg_right (by omega) hd0.le
      have h3 : (db - da - 1) * d = (sbb - sab) - d := by linear_combination hmulc
      have h4 : (j : Int) * (-d) = -((j : Int) * d) := by ring
      constructor <;> linarith
    rw [hONEf sab (hsidef sab hstart0f) hrgf, hONEr (sbb - d) (hsider _ hstart0r) hrgr]
    apply list_reverse_arith
    intro i hi
    rw [hcast i hi]
    linear_combination -hmulc
  · -- reversed source: sbb < sab, delta negative
    have hgt : sbb < sab := fixedToInt_lt_of_lt hflt
    have hd0 : d < 0 := by
      by_contra hc
      push_neg at hc
      have h5 : 0 ≤ d * (db - da) := mul_nonneg hc hn0.le
      omega
    have hdlew : sbb - sab ≤ d := by
      have h5 : d * (db - da) ≤ d * 1 := by
        have := mul_le_mul_of_nonpos_left (show (1 : Int) ≤ db - da from by omega) hd0.le
        linarith [this]
      omega
    have hstart0f : srcStart0 Pf 0 = sab + d := by
      show axisStart (srcDelta Pf 0) (nsA Pf 0) (nsB Pf 0) = sab + d
      rw [hdeltaf, hsAf, hsBf]
      unfold axisStart fmax
      rw [if_neg (by omega), if_pos hflt]
      unfold fixedAdd
      exact wrap32_eq_self (by omega) (by omega)
    have hstart0r : srcStart0 Pr 0 = sbb := by
      show axisStart (srcDelta Pr 0) (nsA Pr 0) (nsB Pr 0) = sbb
      rw [hdeltar, hsAr, hsBr]
      unfold axisStart fmin
      rw [if_pos (by omega), if_pos hflt]
    have hrgf : ∀ j : Nat, (j : Int) < db - da →
        -2147483648 ≤ (sab + d) + (j : Int) * d ∧ (sab + d) + (j : Int) * d < 2147483648 := by
      intro j hj
      have h1 : (j : Int) * d ≤ 0 := mul_nonpos_iff.mpr (Or.inl ⟨by omega, hd0.le⟩)
      have h2 : (db - da - 1) * d ≤ (j : Int) * d := mul_le_mul_of_nonpos_right (by omega) hd0.le
      have h3 : (db - da - 1) * d = (sbb - sab) - d := by linear_combination hmulc
      constructor <;> linarith
    have hrgr : ∀ j : Nat, (j : Int) < db - da →
        -2147483648 ≤ sbb + (j : Int) * (-d) ∧ sbb + (j : Int) * (-d) < 2147483648 := by
      intro j hj
      have h1 : (j : Int) * d ≤ 0 := mul_nonpos_iff.mpr (Or.inl ⟨by omega, hd0.le⟩)
      have h2 : (db - da - 1) * d ≤ (j : Int) * d := mul_le_mul_of_nonpos_right (by omega) hd0.le
      have h3 : (db - da - 1) * d = (sbb - sab) - d := by linear_combination hmulc
      have h4 : (j : Int) * (-d) = -((j : Int) * d) := by ring
      constructor <;> linarith
    rw [hONEf (sab + d) (hsidef _ hstart0f) hrgf, hONEr sbb (hsider _ hstart0r) hrgr]
    apply list_reverse_arith
    intro i hi
    rw [hcast i hi]
    linear_combination -hmulc

theorem claim3_witness :
    (scaleTrace 1 ⟨fun _ => 2, fun _ => 0, fun _ => 0, fun _ => 98304,
        fun _ => 0, fun _ => 2⟩).map Prod.snd =
      ((scaleTrace 1 ⟨fun _ => 0, fun _ => 2, fun _ => 0, fun _ => 98304,
        fun _ => 0, fun _ => 2⟩).map Prod.snd).reverse :=
  claim3_reversal_amended 0 2 0 98304 (by decide) (by decide) (by decide) (by decide)
    (by decide) (by decide) (by decide) (by decide)

theorem claim1_witness :
    runWrite (fun x => 100 + x) (fun _ => 0)
      (scaleTrace 1 ⟨fun _ => 2, fun _ => 5, fun _ => fixedOfInt 10, fun _ => fixedOfInt 13,
        fun _ => 2, fun _ => 5⟩) 3
      = (fun x => 100 + x) (10 + (3 - 2)) :=
  claim1_identity_copy 2 5 10 13 3 (fun x => 100 + x) (fun _ => 0) (by decide) (by decide)
    (by decide) (by decide) (by decide) (by decide) (by decide) (by decide)

theorem snapshot_getD (D : Nat) (p : PointN) (j : Nat) (hj : j < D) :
    (snapshot D p).getD j 0 = p j := by
  unfold snapshot
  rw [List.getD_eq_getElem _ _ (by simpa using hj), List.getElem_map, List.getElem_range]

theorem inWin_zero (cA cB : PointN) (l : List Int) :
    inWin cA cB 0 l = (decide (cA 0 ≤ l.getD 0 0) && decide (l.getD 0 0 < cB 0)) := by
  unfold inWin
  rw [show List.range 1 = [0] from rfl, List.all_cons, List.all_nil, Bool.and_true]

theorem inWin_succ (cA cB : PointN) (idx : Nat) (l : List Int) :
    inWin cA cB (idx + 1) l =
      (inWin cA cB idx l &&
        (decide (cA (idx + 1) ≤ l.getD (idx + 1) 0) &&
          decide (l.getD (idx + 1) 0 < cB (idx + 1)))) := by
  unfold inWin
  rw [List.range_succ, List.all_append]
  simp

theorem flatMap_congr {α β : Type} (l : List α) (f g : α → List β)
    (h : ∀ a ∈ l, f a = g a) : l.flatMap f = l.flatMap g := by
  induction l with
  | nil => rfl
  | cons a t ih =>
    rw [List.flatMap_cons, List.flatMap_cons, h a (List.mem_cons_self a t),
      ih fun x hx => h x (List.mem_cons_of_mem a hx)]

theorem flatMap_if {α β : Type} (l : List α) (q : α → Bool) (f : α → List β) :
    (l.flatMap fun a => if q a then f a else []) = (l.filter q).flatMap f := by
  induction l with
  | nil => rfl
  | cons a t ih =>
    rw [List.flatMap_cons, List.filter_cons]
    by_cases h : q a
    · rw [if_pos h, if_pos h, List.flatMap_cons, ih]
    · rw [if_neg h, if_neg h, ih, List.nil_append]

theorem filter_flatMap {α β : Type} (l : List α) (f : α → List β) (p : β → Bool) :
    (l.flatMap f).filter p = l.flatMap fun a => (f a).filter p := by
  induction l with
  | nil => rfl
  | cons a t ih =>
    rw [List.flatMap_cons, List.flatMap_cons, List.filter_append, ih]

theorem iterTrace_high (D : Nat) (A B S Δ : PointN) :
    ∀ (idx : Nat) (dstI srcI : PointN) (e : List Int × List Int),
      e ∈ iterTrace D A B S Δ idx dstI srcI →
      ∀ j : Nat, idx < j → j < D →
        e.1.getD j 0 = dstI j ∧ e.2.getD j 0 = srcI j
  | 0, dstI, srcI, e, he, j, hj, hjD => by
    rw [iterTrace] at he
    obtain ⟨k, _, hek⟩ := List.mem_map.mp he
    rw [← hek]
    rw [snapshot_getD D _ j hjD, snapshot_getD D _ j hjD]
    unfold fupdate
    rw [if_neg (by omega : j ≠ 0), if_neg (by omega : j ≠ 0)]
    exact ⟨rfl, rfl⟩
  | idx+1, dstI, srcI, e, he, j, hj, hjD => by
    rw [iterTrace] at he
    obtain ⟨k, _, hke⟩ := List.mem_flatMap.mp he
    have ih := iterTrace_high D A B S Δ idx _ _ e hke j (by omega) hjD
    rw [ih.1, ih.2]
    unfold fupdate
    rw [if_neg (by omega : j ≠ idx + 1), if_neg (by omega : j ≠ idx + 1)]
    exact ⟨rfl, rfl⟩

theorem iterTrace_bounds (D : Nat) (A B S Δ : PointN) :
    ∀ (idx : Nat) (dstI srcI : PointN) (e : List Int × List Int),
      e ∈ iterTrace D A B S Δ idx dstI srcI →
      ∀ j : Nat, j ≤ idx → j < D →
        A j ≤ e.1.getD j 0 ∧ e.1.getD j 0 < B j
  | 0, dstI, srcI, e, he, j, hj, hjD => by
    rw [iterTrace] at he
    obtain ⟨k, hk, hek⟩ := List.mem_map.mp he
    have hk' : (k : Int) < B 0 - A 0 := by
      have := List.mem_range.mp hk
      omega
    have hj0 : j = 0 := by omega
    subst hj0
    rw [← hek, snapshot_getD D _ 0 hjD]
    unfold fupdate
    rw [if_pos rfl]
    omega
  | idx+1, dstI, srcI, e, he, j, hj, hjD => by
    rw [iterTrace] at he
    obtain ⟨k, hk, hke⟩ := List.mem_flatMap.mp he
    rcases Nat.lt_or_ge j (idx + 1) with hlt | hge
    · exact iterTrace_bounds D A B S Δ idx _ _ e hke j (by omega) hjD
    · have hj1 : j = idx + 1 := by omega
      subst hj1
      have hk' : (k : Int) < B (idx + 1) - A (idx + 1) := by
        have := List.mem_range.mp hk
        omega
      have hp := (iterTrace_high D A B S Δ idx _ _ e hke (idx + 1) (by omega) hjD).1
      rw [hp]
      unfold fupdate
      rw [if_pos rfl]
      omega

/-- C10: every destination index tuple handed to the processor lies inside
the normalized mask: on each axis i the coordinate is at least
min(mask.a[i], mask.b[i]) and strictly less than max(mask.a[i], mask.b[i]).
Mask normalization, rejection, and clipping together guarantee this for
every invocation of any call. -/
theorem claim10_mask_invariant (D : Nat) (P : ScaleIn) (e : List Int × List Int)
    (he : e ∈ scaleTrace D P) (i : Nat) (hi : i < D) :
    min (P.mskA i) (P.mskB i) ≤ e.1.getD i 0 ∧
      e.1.getD i 0 < max (P.mskA i) (P.mskB i) := by
  unfold scaleTrace at he
  by_cases h1 : degenerate D P = true
  · simp [h1] at he
  by_cases h2 : rejected D P = true
  · simp [h1, h2] at he
  simp only [h1, h2, if_false, Bool.false_eq_true] at he
  have hb := iterTrace_bounds D (clipA P) (clipB P) (srcStart P) (srcDelta P) (D - 1) _ _ e he
    i (by omega) hi
  have hge : nmA P i ≤ clipA P i := by
    unfold clipA
    split <;> omega
  have hle : clipB P i ≤ nmB P i := by
    unfold clipB
    split <;> omega
  have hmin : nmA P i = min (P.mskA i) (P.mskB i) := by
    unfold nmA
    split <;> omega
  have hmax : nmB P i = max (P.mskA i) (P.mskB i) := by
    unfold nmB
    split <;> omega
  omega

theorem claim10_witness :
    min ((fun _ => (0 : Int)) 0) ((fun _ => (2 : Int)) 0) ≤
        (((([0], [0]) : List Int × List Int)).1.getD 0 0) ∧
      (((([0], [0]) : List Int × List Int)).1.getD 0 0) <
        max ((fun _ => (0 : Int)) 0) ((fun _ => (2 : Int)) 0) :=
  claim10_mask_invariant 1
    ⟨fun _ => 0, fun _ => 2, fun _ => 0, fun _ => 65536, fun _ => 0, fun _ => 2⟩
    ([0], [0]) (by decide) 0 (by decide)

theorem range_filter_between (n m n' : Nat) (h : m + n' ≤ n) :
    (List.range n).filter (fun k => decide (m ≤ k) && decide (k < m + n')) =
      (List.range n').map (fun k => m + k) := by
  obtain ⟨r, rfl⟩ : ∃ r, n = m + n' + r := ⟨n - (m + n'), by omega⟩
  rw [List.range_add, List.range_add, List.filter_append, List.filter_append]
  have p1 : (List.range m).filter (fun k => decide (m ≤ k) && decide (k < m + n')) = [] :=
    List.filter_eq_nil_iff.mpr fun k hk => by
      have := List.mem_range.mp hk
      simp only [Bool.and_eq_true, decide_eq_true_eq, not_and]
      omega
  have p2 : ((List.range n').map fun x => m + x).filter
      (fun k => decide (m ≤ k) && decide (k < m + n')) = (List.range n').map fun x => m + x :=
    List.filter_eq_self.mpr fun a ha => by
      obtain ⟨x, hx, rfl⟩ := List.mem_map.mp ha
      have := List.mem_range.mp hx
      simp only [Bool.and_eq_true, decide_eq_true_eq]
      omega
  have p3 : ((List.range r).map fun x => m + n' + x).filter
      (fun k => decide (m ≤ k) && decide (k < m + n')) = [] :=
    List.filter_eq_nil_iff.mpr fun a ha => by
      obtain ⟨x, hx, rfl⟩ := List.mem_map.mp ha
      simp only [Bool.and_eq_true, decide_eq_true_eq, not_and]
      omega
  rw [p1, p2, p3, List.nil_append, List.append_nil]

theorem all_congr {α : Type} {r s : α → Bool} :
    ∀ xs : List α, (∀ x ∈ xs, r x = s x) → xs.all r = xs.all s
  | [], _ => rfl
  | x :: xs, h => by
    rw [List.all_cons, List.all_cons, h x (List.mem_cons_self x xs),
      all_congr xs fun y hy => h y (List.mem_cons_of_mem x hy)]

theorem inWin_congr (cA cB cA2 cB2 : PointN) (idx : Nat)
    (h : ∀ i : Nat, i ≤ idx → cA i = cA2 i ∧ cB i = cB2 i) (l : List Int) :
    inWin cA cB idx l = inWin cA2 cB2 idx l := by
  unfold inWin
  refine all_congr _ fun i hi => ?_
  have hle : i ≤ idx := by
    have := List.mem_range.mp hi
    omega
  rw [(h i hle).1, (h i hle).2]

theorem iterTrace_filter (D : Nat) (A B S Δ cA cB S2 : PointN) :
    ∀ (idx : Nat), idx < D →
      (∀ i : Nat, i ≤ idx →
        A i ≤ cA i ∧ cA i < cB i ∧ cB i ≤ B i ∧
          S2 i = srcSteps (cA i - A i).toNat (S i) (Δ i)) →
      ∀ (dstI srcI : PointN),
        iterTrace D cA cB S2 Δ idx dstI srcI =
          (iterTrace D A B S Δ idx dstI srcI).filter fun e => inWin cA cB idx e.1
  | 0, hD, hyp, dstI, srcI => by
    obtain ⟨h1, h2, h3, h4⟩ := hyp 0 (Nat.le_refl 0)
    rw [iterTrace, iterTrace, List.filter_map]
    have hfc : ∀ k ∈ List.range (B 0 - A 0).toNat,
        ((fun (e : List Int × List Int) => inWin cA cB 0 e.1) ∘ fun (k : Nat) =>
          (snapshot D (fupdate dstI 0 (A 0 + (k : Int))),
           snapshot D (fupdate srcI 0 (srcSteps k (S 0) (Δ 0))))) k
        = (fun k => decide ((cA 0 - A 0).toNat ≤ k) &&
            decide (k < (cA 0 - A 0).toNat + (cB 0 - cA 0).toNat)) k := by
      intro k hk
      show inWin cA cB 0 (snapshot D (fupdate dstI 0 (A 0 + (k : Int)))) = _
      rw [inWin_zero, snapshot_getD D _ 0 hD]
      unfold fupdate
      rw [if_pos rfl]
      have e1 : decide (cA 0 ≤ A 0 + (k : Int)) = decide ((cA 0 - A 0).toNat ≤ k) :=
        decide_eq_decide.mpr (by omega)
      have e2 : decide (A 0 + (k : Int) < cB 0) =
          decide (k < (cA 0 - A 0).toNat + (cB 0 - cA 0).toNat) :=
        decide_eq_decide.mpr (by omega)
      rw [e1, e2]
    rw [List.filter_congr hfc, range_filter_between _ _ _ (by omega), List.map_map]
    refine List.map_congr_left fun k hk => ?_
    show (snapshot D (fupdate dstI 0 (cA 0 + (k : Int))),
        snapshot D (fupdate srcI 0 (srcSteps k (S2 0) (Δ 0))))
      = (snapshot D (fupdate dstI 0 (A 0 + (((cA 0 - A 0).toNat + k : Nat) : Int))),
         snapshot D (fupdate srcI 0 (srcSteps ((cA 0 - A 0).toNat + k) (S 0) (Δ 0))))
    rw [show A 0 + (((cA 0 - A 0).toNat + k : Nat) : Int) = cA 0 + (k : Int) from by
        push_cast; omega,
      srcSteps_add, ← h4]
  | idx+1, hD, hyp, dstI, srcI => by
    obtain ⟨h1, h2, h3, h4⟩ := hyp (idx+1) (Nat.le_refl _)
    rw [iterTrace, iterTrace, filter_flatMap]
    have stage1 : ∀ k ∈ List.range (B (idx+1) - A (idx+1)).toNat,
        (iterTrace D A B S Δ idx
            (fupdate dstI (idx+1) (A (idx+1) + (k : Int)))
            (fupdate srcI (idx+1) (srcSteps k (S (idx+1)) (Δ (idx+1))))).filter
          (fun e => inWin cA cB (idx+1) e.1)
        = if (decide ((cA (idx+1) - A (idx+1)).toNat ≤ k) &&
              decide (k < (cA (idx+1) - A (idx+1)).toNat +
                (cB (idx+1) - cA (idx+1)).toNat)) = true
          then (iterTrace D A B S Δ idx
              (fupdate dstI (idx+1) (A (idx+1) + (k : Int)))
              (fupdate srcI (idx+1) (srcSteps k (S (idx+1)) (Δ (idx+1))))).filter
                (fun e => inWin cA cB idx e.1)
          else [] := by
      intro k hk
      have hcoord : ∀ e ∈ iterTrace D A B S Δ idx
          (fupdate dstI (idx+1) (A (idx+1) + (k : Int)))
          (fupdate srcI (idx+1) (srcSteps k (S (idx+1)) (Δ (idx+1)))),
          e.1.getD (idx+1) 0 = A (idx+1) + (k : Int) := by
        intro e he
        have hp := (iterTrace_high D A B S Δ idx _ _ e he (idx+1) (by omega) hD).1
        rw [hp]
        unfold fupdate
        rw [if_pos rfl]
      by_cases hc : cA (idx+1) ≤ A (idx+1) + (k : Int) ∧ A (idx+1) + (k : Int) < cB (idx+1)
      · have hcb : (decide ((cA (idx+1) - A (idx+1)).toNat ≤ k) &&
            decide (k < (cA (idx+1) - A (idx+1)).toNat +
              (cB (idx+1) - cA (idx+1)).toNat)) = true := by
          simp only [Bool.and_eq_true, decide_eq_true_eq]
          omega
        rw [if_pos hcb]
        refine List.filter_congr fun e he => ?_
        rw [inWin_succ, hcoord e he, decide_eq_true hc.1, decide_eq_true hc.2]
        simp
      · have hcb : ¬ ((decide ((cA (idx+1) - A (idx+1)).toNat ≤ k) &&
            decide (k < (cA (idx+1) - A (idx+1)).toNat +
              (cB (idx+1) - cA (idx+1)).toNat)) = true) := by
          simp only [Bool.and_eq_true, decide_eq_true_eq, not_and]
          omega
        rw [if_neg hcb]
        refine List.filter_eq_nil_iff.mpr fun e he => ?_
        rw [inWin_succ, hcoord e he]
        simp only [Bool.and_eq_true, decide_eq_true_eq, not_and]
        intro _ hA2 hB2
        exact hc ⟨hA2, hB2⟩
    rw [flatMap_congr _ _ _ stage1, flatMap_if, range_filter_between _ _ _ (by omega),
      List.flatMap_map]
    refine flatMap_congr _ _ _ fun k hk => ?_
    have e1 : A (idx+1) + ((((cA (idx+1) - A (idx+1)).toNat + k : Nat)) : Int)
        = cA (idx+1) + (k : Int) := by
      push_cast
      omega
    have e2 : srcSteps ((cA (idx+1) - A (idx+1)).toNat + k) (S (idx+1)) (Δ (idx+1))
        = srcSteps k (S2 (idx+1)) (Δ (idx+1)) := by
      rw [srcSteps_add, ← h4]
    show iterTrace D cA cB S2 Δ idx
        (fupdate dstI (idx+1) (cA (idx+1) + (k : Int)))
        (fupdate srcI (idx+1) (srcSteps k (S2 (idx+1)) (Δ (idx+1))))
      = (iterTrace D A B S Δ idx
          (fupdate dstI (idx+1) (A (idx+1) + ((((cA (idx+1) - A (idx+1)).toNat + k : Nat)) : Int)))
          (fupdate srcI (idx+1)
            (srcSteps ((cA (idx+1) - A (idx+1)).toNat + k) (S (idx+1)) (Δ (idx+1))))).filter
        (fun e => inWin cA cB idx e.1)
    rw [e1, e2]
    exact iterTrace_filter D A B S Δ cA cB S2 idx (by omega)
      (fun i hi => hyp i (by omega)) _ _

/-- C2: for every dimension count and every non-degenerate destination and
source area, applying a mask that lies strictly inside the (reversal
normalized) destination range produces exactly the sub-sequence of
(destination, source) invocation pairs that the same call with a mask
covering the whole destination range produces at the destination indices
inside the mask: the source-start compensation `delta * (mask.a - dst.a)`
together with the clamping of the destination start does not shift the
sampled source positions.  This holds in exact `int32_t` semantics, with
no bounds needed: the compensation is congruent modulo 2^32 to the steps
the unmasked iteration would have taken. -/
theorem claim2_mask_subsequence (D : Nat) (P : ScaleIn) (hD : 0 < D)
    (hnd : ∀ i : Nat, i < D → P.dstA i ≠ P.dstB i)
    (hns : ∀ i : Nat, i < D → P.srcA i ≠ P.srcB i)
    (hm1 : ∀ i : Nat, i < D → ndA P i ≤ P.mskA i)
    (hm2 : ∀ i : Nat, i < D → P.mskA i < P.mskB i)
    (hm3 : ∀ i : Nat, i < D → P.mskB i ≤ ndB P i) :
    scaleTrace D P =
      (scaleTrace D { P with mskA := ndA P, mskB := ndB P }).filter
        (fun e => inWin P.mskA P.mskB (D - 1) e.1) := by
  have hndle : ∀ i : Nat, ndA P i ≤ ndB P i := by
    intro i
    unfold ndA ndB
    split <;> omega
  have hndlt : ∀ i : Nat, i < D → ndA P i < ndB P i := by
    intro i hi
    have hne := hnd i hi
    unfold ndA ndB
    split <;> omega
  have hnmA : ∀ i : Nat, i < D → nmA P i = P.mskA i := by
    intro i hi
    have := hm2 i hi
    unfold nmA
    split <;> omega
  have hnmB : ∀ i : Nat, i < D → nmB P i = P.mskB i := by
    intro i hi
    have := hm2 i hi
    unfold nmB
    split <;> omega
  set P2 : ScaleIn := { P with mskA := ndA P, mskB := ndB P } with hP2
  have hnm2A : ∀ i : Nat, nmA P2 i = ndA P i := by
    intro i
    show (if ndB P i < ndA P i then ndB P i else ndA P i) = ndA P i
    rw [if_neg (by have := hndle i; omega)]
  have hnm2B : ∀ i : Nat, nmB P2 i = ndB P i := by
    intro i
    show (if ndB P i < ndA P i then ndA P i else ndB P i) = ndB P i
    rw [if_neg (by have := hndle i; omega)]
  have hclip2A : clipA P2 = ndA P := by
    funext i
    show (if ndA P2 i < nmA P2 i then nmA P2 i else ndA P2 i) = ndA P i
    rw [show ndA P2 = ndA P from rfl, hnm2A i, if_neg (lt_irrefl _)]
  have hclip2B : clipB P2 = ndB P := by
    funext i
    show (if nmB P2 i ≤ ndB P2 i then nmB P2 i else ndB P2 i) = ndB P i
    rw [show ndB P2 = ndB P from rfl, hnm2B i, if_pos le_rfl]
  have hstart2 : srcStart P2 = srcStart0 P := by
    funext i
    show (if ndA P2 i < nmA P2 i
      then wrap32 (srcStart0 P2 i + wrap32 (srcDelta P2 i * wrap32 (nmA P2 i - ndA P2 i)))
      else srcStart0 P2 i) = srcStart0 P i
    rw [show ndA P2 = ndA P from rfl, hnm2A i, if_neg (lt_irrefl _)]
    rfl
  have hdeg : degenerate D P = false := by
    unfold degenerate
    rw [List.any_eq_false]
    intro i hi
    have hi' := List.mem_range.mp hi
    simp [hnd i hi', hns i hi']
  have hdeg2 : degenerate D P2 = false := hdeg
  have hrej : rejected D P = false := by
    unfold rejected
    rw [List.any_eq_false]
    intro i hi
    have hi' := List.mem_range.mp hi
    have e1 := hnmA i hi'
    have e2 := hnmB i hi'
    have e3 := hm1 i hi'
    have e4 := hm2 i hi'
    have e5 := hm3 i hi'
    simp only [Bool.or_eq_true, decide_eq_true_eq, not_or]
    omega
  have hrej2 : rejected D P2 = false := by
    unfold rejected
    rw [List.any_eq_false]
    intro i hi
    have hi' := List.mem_range.mp hi
    have e3 := hndlt i hi'
    simp only [Bool.or_eq_true, decide_eq_true_eq, not_or]
    rw [hnm2A i, hnm2B i, show ndB P2 = ndB P from rfl, show ndA P2 = ndA P from rfl]
    omega
  unfold scaleTrace
  rw [hdeg, hdeg2, hrej, hrej2]
  simp only [Bool.false_eq_true, if_false]
  rw [hclip2A, hclip2B, hstart2, show srcDelta P2 = srcDelta P from rfl]
  rw [iterTrace_filter D (ndA P) (ndB P) (srcStart0 P) (srcDelta P) (clipA P) (clipB P)
    (srcStart P) (D - 1) (by omega)
    (fun i hi => by
      have hiD : i < D := by omega
      refine ⟨?_, ?_, ?_, ?_⟩
      · show ndA P i ≤ clipA P i
        unfold clipA
        split <;> omega
      · show clipA P i < clipB P i
        have e1 := hnmA i hiD
        have e2 := hnmB i hiD
        have e3 := hm1 i hiD
        have e4 := hm2 i hiD
        have e5 := hm3 i hiD
        unfold clipA clipB
        split <;> split <;> omega
      · show clipB P i ≤ ndB P i
        unfold clipB
        split <;> omega
      · by_cases hcl : ndA P i < nmA P i
        · have hclipval : clipA P i = nmA P i := by
            unfold clipA
            rw [if_pos hcl]
          have hm : 1 ≤ (clipA P i - ndA P i).toNat := by omega
          rw [srcSteps_pos _ hm]
          show (if ndA P i < nmA P i
            then wrap32 (srcStart0 P i + wrap32 (srcDelta P i * wrap32 (nmA P i - ndA P i)))
            else srcStart0 P i)
            = wrap32 (srcStart0 P i + ((clipA P i - ndA P i).toNat : Int) * srcDelta P i)
          rw [if_pos hcl, wrap32_mul_right, wrap32_add_right,
            show (((clipA P i - ndA P i).toNat : Nat) : Int) = nmA P i - ndA P i from by omega,
            mul_comm (srcDelta P i) (nmA P i - ndA P i)]
        · have hclipval : clipA P i = ndA P i := by
            unfold clipA
            rw [if_neg hcl]
          have hm : (clipA P i - ndA P i).toNat = 0 := by omega
          rw [hm]
          show (if ndA P i < nmA P i
            then wrap32 (srcStart0 P i + wrap32 (srcDelta P i * wrap32 (nmA P i - ndA P i)))
            else srcStart0 P i) = srcSteps 0 (srcStart0 P i) (srcDelta P i)
          rw [if_neg hcl]
          rfl)
    (fun _ => 0) (fun _ => 0)]
  refine List.filter_congr fun e he => ?_
  refine inWin_congr _ _ _ _ _ (fun i hi => ?_) e.1
  have hiD : i < D := by omega
  constructor
  · show (if ndA P i < nmA P i then nmA P i else ndA P i) = P.mskA i
    rw [hnmA i hiD]
    have := hm1 i hiD
    split <;> omega
  · show (if nmB P i ≤ ndB P i then nmB P i else ndB P i) = P.mskB i
    rw [hnmB i hiD]
    have := hm3 i hiD
    split <;> omega

theorem claim2_witness :
    scaleTrace 1 ⟨fun _ => 0, fun _ => 4, fun _ => 0, fun _ => 131072,
        fun _ => 1, fun _ => 3⟩ =
      (scaleTrace 1 { (⟨fun _ => 0, fun _ => 4, fun _ => 0, fun _ => 131072,
          fun _ => 1, fun _ => 3⟩ : ScaleIn) with
        mskA := ndA ⟨fun _ => 0, fun _ => 4, fun _ => 0, fun _ => 131072,
          fun _ => 1, fun _ => 3⟩,
        mskB := ndB ⟨fun _ => 0, fun _ => 4, fun _ => 0, fun _ => 131072,
          fun _ => 1, fun _ => 3⟩ }).filter
        (fun e => inWin
          (ScaleIn.mskA ⟨fun _ => 0, fun _ => 4, fun _ => 0, fun _ => 131072,
            fun _ => 1, fun _ => 3⟩)
          (ScaleIn.mskB ⟨fun _ => 0, fun _ => 4, fun _ => 0, fun _ => 131072,
            fun _ => 1, fun _ => 3⟩) 0 e.1) :=
  claim2_mask_subsequence 1 _ (by decide)
    (fun i hi => by
      have h0 : i = 0 := by omega
      subst h0
      decide)
    (fun i hi => by
      have h0 : i = 0 := by omega
      subst h0
      decide)
    (fun i hi => by
      have h0 : i = 0 := by omega
      subst h0
      decide)
    (fun i hi => by
      have h0 : i = 0 := by omega
      subst h0
      decide)
    (fun i hi => by
      have h0 : i = 0 := by omega
      subst h0
      decide)

end Scale
